import Mathlib

/-!
# Verification of the sz-aiapi-runner batch-execution engine

Shallow embedding of the resumable, chunked batch-execution engine:

* `scripts/split_for_parallel.py` — the Job Splitter (`split_dataset`),
* `scripts/run_parallel.py` — the Chunk State Tracker
  (`get_pending_chunks` / `get_completed_chunks`), the chunk worker
  (`run_chunk`), the Result Merger (`merge_results`) and the bounded
  worker-pool scheduler (`run_parallel`),
* `scripts/upload_images_s3.py` and `scripts/image_proxy/download_images.py`
  — the Sequential Resume Engine (resume pointer, failed queue).

Pure data transformations are embedded as Lean functions over lists; the
filesystem state the scripts manipulate (chunk directories, marker files,
the resume-pointer and failed-queue files) is made explicit as record
types, and the scheduler loop is a small-step transition relation.
-/

/-! ## Job Splitter (`split_for_parallel.py`, `split_dataset`) -/

/-- The chunk slices produced by `split_dataset`: the source computes
`num_chunks = (total_records + chunk_size - 1) // chunk_size` and, for
each `i < num_chunks`, the slice `rows[i*chunk_size : min((i+1)*chunk_size,
total_records)]`.  Slicing `rows[a:b]` with `b = min(a + S, N)` is
`(rows.drop a).take S`. -/
def split_dataset_chunks {α : Type} (rows : List α) (chunk_size : Nat) :
    List (List α) :=
  let num_chunks := (rows.length + chunk_size - 1) / chunk_size
  (List.range num_chunks).map
    (fun i => (rows.drop (i * chunk_size)).take chunk_size)

/-- Recursive companion of `split_dataset_chunks`, used for induction. -/
def chunksRec {α : Type} (S : Nat) (rows : List α) : List (List α) :=
  if h : rows.length = 0 ∨ S = 0 then []
  else rows.take S :: chunksRec S (rows.drop S)
termination_by rows.length
decreasing_by
  push_neg at h
  simp only [List.length_drop]
  omega

theorem chunksRec_nil {α : Type} (S : Nat) : chunksRec S ([] : List α) = [] := by
  rw [chunksRec]
  simp

theorem chunksRec_cons {α : Type} (S : Nat) (hS : S ≠ 0) (rows : List α)
    (h : rows ≠ []) :
    chunksRec S rows = rows.take S :: chunksRec S (rows.drop S) := by
  rw [chunksRec]
  rw [dif_neg]
  push_neg
  exact ⟨by simpa using h, hS⟩

/-- The ceiling-division chunk count, as computed by the source. -/
theorem chunksRec_length {α : Type} (S : Nat) (hS : 0 < S) (rows : List α) :
    (chunksRec S rows).length = (rows.length + S - 1) / S := by
  generalize hn : rows.length = n
  induction n using Nat.strong_induction_on generalizing rows with
  | _ n ih =>
    by_cases hnil : rows = []
    · subst hnil
      simp only [List.length_nil] at hn
      subst hn
      rw [chunksRec_nil]
      simp only [List.length_nil]
      symm
      exact Nat.div_eq_of_lt (by omega)
    · rw [chunksRec_cons S (by omega) rows hnil]
      have hlen : 0 < n := by
        rw [← hn]
        exact List.length_pos.mpr hnil
      have hdrop : (rows.drop S).length = n - S := by
        simp [List.length_drop, hn]
      have := ih (n - S) (by omega) (rows.drop S) hdrop
      simp only [List.length_cons, this]
      -- arithmetic: (n - S + S - 1) / S + 1 = (n + S - 1) / S, for 0 < n, 0 < S
      rcases Nat.lt_or_ge S n with hns | hns
      · have h1 : n - S + S - 1 = n - 1 := by omega
        have h2 : n + S - 1 = n - 1 + S := by omega
        rw [h1, h2, Nat.add_div_right _ hS]
      · have h1 : n - S + S - 1 = S - 1 := by omega
        have h2 : (S - 1) / S = 0 := Nat.div_eq_of_lt (by omega)
        have h3 : (n + S - 1) / S = 1 :=
          Nat.div_eq_of_lt_le (by omega) (by omega)
        rw [h1, h2, h3]

/-- The `range`/slice form of the source agrees with the recursive form. -/
theorem split_dataset_chunks_eq_rec {α : Type} (S : Nat) (hS : 0 < S)
    (rows : List α) : split_dataset_chunks rows S = chunksRec S rows := by
  generalize hn : rows.length = n
  induction n using Nat.strong_induction_on generalizing rows with
  | _ n ih =>
    by_cases hnil : rows = []
    · subst hnil
      simp only [List.length_nil] at hn
      rw [chunksRec_nil]
      simp only [split_dataset_chunks, List.length_nil]
      rw [Nat.div_eq_of_lt (by omega)]
      simp
    · rw [chunksRec_cons S (by omega) rows hnil]
      have hlen : 0 < n := by
        rw [← hn]
        exact List.length_pos.mpr hnil
      have hdrop : (rows.drop S).length = n - S := by
        simp [List.length_drop, hn]
      have hih := ih (n - S) (by omega) (rows.drop S) hdrop
      have hk : (rows.length + S - 1) / S = ((rows.drop S).length + S - 1) / S + 1 := by
        rw [hn, hdrop]
        rcases Nat.lt_or_ge S n with hns | hns
        · have h1 : n - S + S - 1 = n - 1 := by omega
          have h2 : n + S - 1 = n - 1 + S := by omega
          rw [h1, h2, Nat.add_div_right _ hS]
        · have h1 : n - S + S - 1 = S - 1 := by omega
          have h2 : (S - 1) / S = 0 := Nat.div_eq_of_lt (by omega)
          have h3 : (n + S - 1) / S = 1 :=
            Nat.div_eq_of_lt_le (by omega) (by omega)
          rw [h1, h2, h3]
      simp only [split_dataset_chunks] at hih ⊢
      rw [hk, List.range_succ_eq_map, List.map_cons, List.map_map]
      congr 1
      · simp
      · rw [← hih]
        apply List.map_congr_left
        intro i _
        simp only [Function.comp_apply, List.drop_drop]
        congr 2
        have : Nat.succ i * S = i * S + S := Nat.succ_mul i S
        omega

/-- Concatenating the chunks in index order restores the input exactly. -/
theorem chunksRec_join {α : Type} (S : Nat) (hS : 0 < S) (rows : List α) :
    (chunksRec S rows).flatten = rows := by
  generalize hn : rows.length = n
  induction n using Nat.strong_induction_on generalizing rows with
  | _ n ih =>
    by_cases hnil : rows = []
    · subst hnil
      rw [chunksRec_nil]
      rfl
    · rw [chunksRec_cons S (by omega) rows hnil]
      have hlen : 0 < n := by
        rw [← hn]
        exact List.length_pos.mpr hnil
      have hdrop : (rows.drop S).length = n - S := by
        simp [List.length_drop, hn]
      rw [List.flatten_cons, ih (n - S) (by omega) (rows.drop S) hdrop,
        List.take_append_drop]

/-- Every chunk holds at most `S` items. -/
theorem chunksRec_mem_length_le {α : Type} (S : Nat) (hS : 0 < S)
    (rows : List α) : ∀ c ∈ chunksRec S rows, c.length ≤ S := by
  generalize hn : rows.length = n
  induction n using Nat.strong_induction_on generalizing rows with
  | _ n ih =>
    by_cases hnil : rows = []
    · subst hnil
      rw [chunksRec_nil]
      intro c hc
      exact absurd hc (List.not_mem_nil c)
    · rw [chunksRec_cons S (by omega) rows hnil]
      have hlen : 0 < n := by
        rw [← hn]
        exact List.length_pos.mpr hnil
      have hdrop : (rows.drop S).length = n - S := by
        simp [List.length_drop, hn]
      intro c hc
      rcases List.mem_cons.mp hc with hc | hc
      · subst hc
        simp [List.length_take]
      · exact ih (n - S) (by omega) (rows.drop S) hdrop c hc

/-- Every chunk except possibly the last holds exactly `S` items. -/
theorem chunksRec_dropLast_length {α : Type} (S : Nat) (hS : 0 < S)
    (rows : List α) : ∀ c ∈ (chunksRec S rows).dropLast, c.length = S := by
  generalize hn : rows.length = n
  induction n using Nat.strong_induction_on generalizing rows with
  | _ n ih =>
    by_cases hnil : rows = []
    · subst hnil
      rw [chunksRec_nil]
      intro c hc
      exact absurd hc (List.not_mem_nil c)
    · rw [chunksRec_cons S (by omega) rows hnil]
      have hlen : 0 < n := by
        rw [← hn]
        exact List.length_pos.mpr hnil
      have hdrop : (rows.drop S).length = n - S := by
        simp [List.length_drop, hn]
      by_cases hrest : rows.drop S = []
      · rw [hrest, chunksRec_nil]
        intro c hc
        exact absurd hc (List.not_mem_nil c)
      · have hne : chunksRec S (rows.drop S) ≠ [] := by
          rw [chunksRec_cons S (by omega) _ hrest]
          exact List.cons_ne_nil _ _
        intro c hc
        rw [List.dropLast_cons_of_ne_nil hne] at hc
        rcases List.mem_cons.mp hc with hc | hc
        · subst hc
          have hSn : S < n := by
            have : rows.length ≤ S → rows.drop S = [] := fun h =>
              List.drop_eq_nil_of_le h
            by_contra hcon
            exact hrest (this (by omega))
          simp [List.length_take, hn]
          omega
        · exact ih (n - S) (by omega) (rows.drop S) hdrop c hc

/-- When `S` does not divide `N`, the last chunk holds `N % S` items. -/
theorem chunksRec_getLast_length {α : Type} (S : Nat) (hS : 0 < S)
    (rows : List α) :
    ¬ (S ∣ rows.length) →
    ∀ lc, (chunksRec S rows).getLast? = some lc → lc.length = rows.length % S := by
  generalize hn : rows.length = n
  induction n using Nat.strong_induction_on generalizing rows with
  | _ n ih =>
    intro hnd
    by_cases hnil : rows = []
    · subst hnil
      rw [chunksRec_nil]
      intro lc hlc
      exact absurd hlc (by simp)
    · rw [chunksRec_cons S (by omega) rows hnil]
      have hlen : 0 < n := by
        rw [← hn]
        exact List.length_pos.mpr hnil
      have hdrop : (rows.drop S).length = n - S := by
        simp [List.length_drop, hn]
      by_cases hrest : rows.drop S = []
      · have hle : n ≤ S := by
          by_contra hcon
          have h0 : (rows.drop S).length = 0 := by rw [hrest]; rfl
          omega
        have hlt : n < S := by
          by_contra hcon
          have hn' : n = S := by omega
          exact hnd ⟨1, by omega⟩
        rw [hrest, chunksRec_nil]
        intro lc hlc
        have hlc' : lc = rows.take S := by
          have : ([rows.take S] : List (List α)).getLast? = some (rows.take S) := rfl
          rw [this, Option.some.injEq] at hlc
          exact hlc.symm
        subst hlc'
        rw [Nat.mod_eq_of_lt hlt]
        simp only [List.length_take, hn]
        omega
      · obtain ⟨b, l2, hbl⟩ : ∃ b l2, chunksRec S (rows.drop S) = b :: l2 := by
          rw [chunksRec_cons S (by omega) _ hrest]
          exact ⟨_, _, rfl⟩
        have hSn : S ≤ n := by
          by_contra hcon
          exact hrest (List.drop_eq_nil_of_le (by omega))
        intro lc hlc
        rw [hbl, List.getLast?_cons_cons] at hlc
        have hnd2 : ¬ (S ∣ (n - S)) := by
          rintro ⟨k, hk⟩
          refine hnd ⟨k + 1, ?_⟩
          rw [Nat.mul_succ, ← hk]
          omega
        have hres := ih (n - S) (by omega) (rows.drop S) hdrop hnd2 lc (by rw [hbl]; exact hlc)
        rw [hres]
        conv_rhs => rw [show n = (n - S) + 1 * S by omega]
        rw [Nat.add_mul_mod_self_right]

/-! ## Chunk worker (`run_parallel.py`, `run_chunk`) -/

/-- Messages `run_chunk` can return (the third component of its result
tuple), kept structured rather than as formatted strings. -/
inductive ChunkMsg where
  | inputNotFound : ChunkMsg
  | completed : ChunkMsg
  | exitFailure (returncode : Int) (errorSummary : String) : ChunkMsg
  | exceptionText (e : String) : ChunkMsg
deriving DecidableEq

/-- Environment of one out-of-process Item Processor invocation for a
chunk: whether `input.tsv` exists, whether launching the subprocess raised,
its exit code, and the lines of the per-chunk `run.log` it produced. -/
structure ChunkEnv where
  inputExists : Bool
  launchError : Option String
  returncode : Int
  logLines : List String

/-- `"".join(lines[-5:])[:200] if lines else "unknown error"` — the error
summary taken from the tail of the per-chunk log. -/
def log_tail (lines : List String) : String :=
  if lines.isEmpty then "unknown error"
  else (String.join (lines.drop (lines.length - 5))).take 200

/-- Result of `run_chunk`: whether `.done` was touched, plus the returned
`(success, message)` pair. -/
structure RunChunkResult where
  markerWritten : Bool
  success : Bool
  message : ChunkMsg
deriving DecidableEq

/-- `run_chunk` from `run_parallel.py`: missing `input.tsv` → failure;
subprocess launch exception → failure; exit code `0` → touch `.done` and
report success; non-zero exit code → no marker, failure whose message
carries the log tail. -/
def run_chunk (env : ChunkEnv) : RunChunkResult :=
  if !env.inputExists then ⟨false, false, .inputNotFound⟩
  else
    match env.launchError with
    | some e => ⟨false, false, .exceptionText e⟩
    | none =>
      if env.returncode = 0 then ⟨true, true, .completed⟩
      else ⟨false, false, .exitFailure env.returncode (log_tail env.logLines)⟩

/-! ## Chunk State Tracker (`get_pending_chunks` / `get_completed_chunks`) -/

/-- One chunk directory of a job's chunk store: its (1-based) index, the
presence of the `.done` marker, and its `result.tsv` content when the file
exists — a header plus data rows.  Directory names are the zero-padded
index, so `sorted(chunks_dir.iterdir())` is sorting by index. -/
structure StoredChunk where
  index : Nat
  done : Bool
  result : Option (List String × List (List String))
deriving DecidableEq

/-- The index order used by `sorted(chunks_dir.iterdir())`. -/
def chunkLE (a b : StoredChunk) : Prop := a.index ≤ b.index

instance : DecidableRel chunkLE := fun a b => Nat.decLe a.index b.index

/-- `get_pending_chunks`: scan in sorted order, keep chunks without a
`.done` marker. -/
def get_pending_chunks (store : List StoredChunk) : List StoredChunk :=
  (List.insertionSort chunkLE store).filter (fun c => !c.done)

/-- `get_completed_chunks`: scan in sorted order, keep chunks with a
`.done` marker. -/
def get_completed_chunks (store : List StoredChunk) : List StoredChunk :=
  (List.insertionSort chunkLE store).filter (fun c => c.done)

/-! ## Result Merger (`merge_results`) -/

/-- Outcome of `merge_results`: the source returns `None` when there is no
completed chunk or the first completed chunk's `result.tsv` is missing,
raises an uncaught `ValueError` from `csv.DictWriter.writerow` when a row
carries a column outside the chosen fieldnames, and otherwise writes the
merged file.  `missingWarned` lists the indices of completed chunks whose
`result.tsv` was missing (each produces a "not found, skipping" warning —
the only warning the merge ever emits). -/
inductive MergeOutcome where
  | noChunks : MergeOutcome
  | firstResultMissing : MergeOutcome
  | valueErrorRaised : MergeOutcome
  | merged (fieldnames : List String) (rows : List (List String))
      (missingWarned : List Nat) : MergeOutcome
deriving DecidableEq

/-- `csv.DictWriter.writerow` on a row read by `csv.DictReader` with header
`hdr`: a key outside `fieldnames` raises (`extrasaction='raise'`), a
missing key is filled with the empty-string `restval`, and values are laid
out in `fieldnames` order. -/
def remap_row (fieldnames hdr row : List String) : Option (List String) :=
  let pairs := hdr.zip row
  if pairs.all (fun p => fieldnames.contains p.1) then
    some (fieldnames.map (fun f =>
      ((pairs.find? (fun p => p.1 = f)).map Prod.snd).getD ""))
  else none

def remap_rows (fieldnames hdr : List String) :
    List (List String) → Option (List (List String))
  | [] => some []
  | r :: rs =>
    match remap_row fieldnames hdr r with
    | none => none
    | some r2 => (remap_rows fieldnames hdr rs).map (fun l => r2 :: l)

/-- The merge loop over the completed chunks: missing `result.tsv` warns
and skips; a bad row aborts the whole merge (uncaught `ValueError`). -/
def merge_chunks (fieldnames : List String) :
    List StoredChunk → Option (List (List String) × List Nat)
  | [] => some ([], [])
  | c :: rest =>
    match c.result with
    | none => (merge_chunks fieldnames rest).map (fun p => (p.1, c.index :: p.2))
    | some (hdr, rows) =>
      match remap_rows fieldnames hdr rows with
      | none => none
      | some rs => (merge_chunks fieldnames rest).map (fun p => (rs ++ p.1, p.2))

/-- `merge_results` from `run_parallel.py`: fieldnames are read from the
first completed chunk's `result.tsv`, then every completed chunk's rows are
appended in chunk-index order. -/
def merge_results (store : List StoredChunk) : MergeOutcome :=
  match get_completed_chunks store with
  | [] => .noChunks
  | first :: rest =>
    match first.result with
    | none => .firstResultMissing
    | some (fieldnames, _) =>
      match merge_chunks fieldnames (first :: rest) with
      | none => .valueErrorRaised
      | some (rows, warns) => .merged fieldnames rows warns

/-! ## Parallel Executor scheduler (`run_parallel`) -/

/-- Scheduler state of one `run_parallel` run: `toLaunch` is what remains
of the one-time `pending_iter` snapshot, `inFlight` the chunks whose
futures are outstanding (each holding one of the `W` worker slots), and
`finished` the chunks whose futures have completed, with their success
flag. -/
structure ExecState where
  toLaunch : List Nat
  inFlight : List Nat
  finished : List (Nat × Bool)
deriving DecidableEq

/-- One scheduler step: `launch` is `submit_next` — it takes the next
chunk off the snapshot iterator when a worker slot is free; `finish` is
the completion of any outstanding future (OS completion order is
arbitrary), freeing its slot. -/
inductive ExecStep (W : Nat) : ExecState → ExecState → Prop where
  | launch (c : Nat) (rest inF : List Nat) (fin : List (Nat × Bool)) :
      inF.length < W →
      ExecStep W ⟨c :: rest, inF, fin⟩ ⟨rest, c :: inF, fin⟩
  | finish (c : Nat) (ok : Bool) (tl inF : List Nat) (fin : List (Nat × Bool)) :
      c ∈ inF →
      ExecStep W ⟨tl, inF, fin⟩ ⟨tl, inF.erase c, (c, ok) :: fin⟩

/-- States reachable from the initial snapshot `init` of pending chunks. -/
def ExecReach (W : Nat) (init : List Nat) : ExecState → Prop :=
  Relation.ReflTransGen (ExecStep W) ⟨init, [], []⟩

/-- Run invariant: the chunks handed to workers so far are a permutation
of an initial segment of the snapshot, and at most `W` are in flight. -/
theorem execReach_inv (W : Nat) (init : List Nat) (s : ExecState)
    (h : ExecReach W init s) :
    ∃ launched : List Nat,
      init = launched ++ s.toLaunch ∧
      (s.inFlight ++ s.finished.map Prod.fst).Perm launched ∧
      s.inFlight.length ≤ W := by
  induction h with
  | refl => exact ⟨[], by simp, by simp, by simp⟩
  | tail hreach hstep ih =>
    obtain ⟨launched, h1, h2, h3⟩ := ih
    cases hstep with
    | launch c rest inF fin hW =>
      refine ⟨launched ++ [c], ?_, ?_, ?_⟩
      · show init = (launched ++ [c]) ++ rest
        rw [h1]
        simp
      · show ((c :: inF) ++ fin.map Prod.fst).Perm (launched ++ [c])
        have h2i : (inF ++ fin.map Prod.fst).Perm launched := h2
        have p1 : ((c :: inF) ++ fin.map Prod.fst).Perm (c :: launched) := by
          simpa using h2i.cons c
        have p2 : (c :: launched).Perm (launched ++ [c]) :=
          (List.perm_append_singleton c launched).symm
        exact p1.trans p2
      · show (c :: inF).length ≤ W
        simp only [List.length_cons]
        omega
    | finish c ok tl inF fin hc =>
      refine ⟨launched, h1, ?_, ?_⟩
      · show (inF.erase c ++ ((c, ok) :: fin).map Prod.fst).Perm launched
        have h2i : (inF ++ fin.map Prod.fst).Perm launched := h2
        have p1 : (inF.erase c ++ (c :: fin.map Prod.fst)).Perm
            (c :: (inF.erase c ++ fin.map Prod.fst)) := List.perm_middle
        have p2 : (c :: (inF.erase c ++ fin.map Prod.fst)).Perm
            (inF ++ fin.map Prod.fst) := by
          have hci : inF.Perm (c :: inF.erase c) := List.perm_cons_erase hc
          have := hci.symm.append_right (fin.map Prod.fst)
          simpa using this
        simpa using (p1.trans (p2.trans h2i))
      · show (inF.erase c).length ≤ W
        exact le_trans (List.erase_sublist c inF).length_le h3

/-- Aggregate effect of one `run_parallel` run on the chunk store.  The
source enumerates `pending = get_pending_chunks(job_dir)` once; if it is
empty it prints "All chunks completed!" and returns without entering the
executor, launching nothing.  Otherwise every pending chunk is submitted
exactly once (the scheduler machine above) and each submission runs
`run_chunk`, which touches the chunk's `.done` marker exactly when its
invocation exits `0`.  Returns (indices launched, store afterwards). -/
def run_parallel (store : List StoredChunk) (env : Nat → ChunkEnv) :
    List Nat × List StoredChunk :=
  let pending := get_pending_chunks store
  if pending.isEmpty then ([], store)
  else
    (pending.map (fun c => c.index),
     store.map (fun c =>
       if !c.done && (run_chunk (env c.index)).markerWritten then
         { c with done := true }
       else c))

/-! ## Sequential Resume Engine
(`upload_images_s3.py`, `image_proxy/download_images.py`) -/

/-- The persisted sequential-mode artifacts: the resume-pointer file
(`none` = absent or empty) and the failed-queue file as a list of
`(item, error)` lines (`[]` = absent or empty). -/
structure SeqArtifacts where
  resumePtr : Option String
  failedQueue : List (String × String)
deriving DecidableEq

/-- The resume start index: `files.index(resume_name) + 1` when the
pointer names an item of the list (first occurrence), `0` otherwise —
`upload_images_s3.py` catches the `ValueError` of `list.index`,
`download_images.py` scans with a loop that only sets `start_idx` on a
match; both print a message and keep `start_idx = 0`. -/
def resume_start_idx (files : List String) (resume : Option String) : Nat :=
  match resume with
  | none => 0
  | some r =>
    match files.indexOf? r with
    | some i => i + 1
    | none => 0

/-- One run of the sequential engine, tracking its effect on the persisted
artifacts.  `dirFiles` is the scanned source list, `failsWith` tells which
items fail this run (and with what error text).  Mirrors `main()` of
`upload_images_s3.py` (the download sibling is structurally identical):
retry-failed replaces the input with the failed queue and truncates it;
start-over deletes both artifacts; the slice actually processed is
`files[start_idx:end_idx]`; failures are appended to the queue; the resume
pointer is finally set to the last processed item, then deleted when the
run reached the end of the list (`remaining == 0`). -/
def seq_run (dirFiles : List String) (startover retryFailed : Bool)
    (limit : Nat) (art : SeqArtifacts) (failsWith : String → Option String) :
    SeqArtifacts :=
  if retryFailed && art.failedQueue.isEmpty then art
  else
    let files := if retryFailed then art.failedQueue.map Prod.fst else dirFiles
    let art1 := if retryFailed then { art with failedQueue := [] } else art
    let art2 := if startover then ⟨none, []⟩ else art1
    let start_idx :=
      if !startover && !retryFailed then resume_start_idx files art2.resumePtr
      else 0
    let end_idx := if limit > 0 then min (start_idx + limit) files.length
      else files.length
    let files_to_process := (files.drop start_idx).take (end_idx - start_idx)
    if files_to_process.isEmpty then art2
    else
      let newFailures := files_to_process.filterMap
        (fun f => (failsWith f).map (fun e => (f, e)))
      let art3 : SeqArtifacts :=
        ⟨files_to_process.getLast?, art2.failedQueue ++ newFailures⟩
      if files.length - end_idx = 0 then { art3 with resumePtr := none }
      else art3

/-- The slice of items a sequential run processes, as computed by
`main()`: `files[start_idx:end_idx]`. -/
def seq_files_to_process (files : List String) (startover retryFailed : Bool)
    (limit : Nat) (resume : Option String) : List String :=
  let start_idx :=
    if !startover && !retryFailed then resume_start_idx files resume else 0
  let end_idx := if limit > 0 then min (start_idx + limit) files.length
    else files.length
  (files.drop start_idx).take (end_idx - start_idx)

/-! ## Splitter entry point (`split_for_parallel.py`, `main` + `split_dataset`) -/

inductive SplitError where
  | inputNotFound : SplitError
deriving DecidableEq

/-- The Job record `split_dataset` writes to `meta.json`, together with
the chunk input slices it materializes. -/
structure SplitJob where
  total_records : Nat
  chunk_size : Nat
  chunk_count : Nat
  chunks : List (List (List String))
deriving DecidableEq

/-- The splitter pipeline: `main` fails when the input file does not exist
(`source = none`); otherwise `split_dataset` unconditionally creates the
job — it has no check on the record count. -/
def split_for_parallel (source : Option (List (List String))) (S : Nat) :
    Except SplitError SplitJob :=
  match source with
  | none => .error .inputNotFound
  | some rows =>
    .ok ⟨rows.length, S, (rows.length + S - 1) / S, split_dataset_chunks rows S⟩

/-! ## Claim theorems -/

/-- C1: `run_chunk` writes the chunk's `.done` completion marker if and
only if the Item Processor invocation over the chunk's input exited with
code zero; on a non-zero exit the marker is not written (the chunk stays
pending), the result records failure, and the message carries the tail of
the per-chunk `run.log` as the error summary. -/
theorem run_chunk_marker_iff_exit_zero (env : ChunkEnv)
    (hin : env.inputExists = true) (hl : env.launchError = none) :
    ((run_chunk env).markerWritten = true ↔ env.returncode = 0) ∧
    (env.returncode ≠ 0 →
      run_chunk env =
        ⟨false, false, .exitFailure env.returncode (log_tail env.logLines)⟩) := by
  unfold run_chunk
  rw [hin, hl]
  by_cases h0 : env.returncode = 0
  · simp [h0]
  · simp [h0]

theorem run_chunk_marker_iff_exit_zero_witness :
    ((run_chunk ⟨true, none, 2, ["boom\n"]⟩).markerWritten = true ↔ (2 : Int) = 0) ∧
    ((2 : Int) ≠ 0 →
      run_chunk ⟨true, none, 2, ["boom\n"]⟩ =
        ⟨false, false, .exitFailure 2 (log_tail ["boom\n"])⟩) :=
  run_chunk_marker_iff_exit_zero ⟨true, none, 2, ["boom\n"]⟩ rfl rfl

/-- C2: for any ordered input and chunk size `S > 0`, `split_dataset`
produces exactly `⌈N / S⌉ = (N + S - 1) / S` chunks; the chunks are
contiguous, non-overlapping, order-preserving slices whose concatenation
in chunk-index order is the input exactly once; every chunk except
possibly the last has exactly `S` items, and when `S` does not divide `N`
the last chunk has `N % S` items.  Determinism over the same source and
`S` is definitional: `split_dataset_chunks` is a pure function of
`(rows, S)`. -/
theorem split_dataset_partition {α : Type} (rows : List α) (S : Nat)
    (hS : 0 < S) :
    (split_dataset_chunks rows S).length = (rows.length + S - 1) / S ∧
    (split_dataset_chunks rows S).flatten = rows ∧
    (∀ c ∈ (split_dataset_chunks rows S).dropLast, c.length = S) ∧
    (∀ c ∈ split_dataset_chunks rows S, c.length ≤ S) ∧
    (¬ (S ∣ rows.length) →
      ∀ lc, (split_dataset_chunks rows S).getLast? = some lc →
        lc.length = rows.length % S) := by
  rw [split_dataset_chunks_eq_rec S hS]
  exact ⟨chunksRec_length S hS rows, chunksRec_join S hS rows,
    chunksRec_dropLast_length S hS rows, chunksRec_mem_length_le S hS rows,
    fun h => chunksRec_getLast_length S hS rows h⟩

theorem split_dataset_partition_witness :
    (split_dataset_chunks (List.range 7) 3).length = (7 + 3 - 1) / 3 ∧
    (split_dataset_chunks (List.range 7) 3).flatten = List.range 7 ∧
    (∀ c ∈ (split_dataset_chunks (List.range 7) 3).dropLast, c.length = 3) ∧
    (∀ c ∈ split_dataset_chunks (List.range 7) 3, c.length ≤ 3) ∧
    (¬ (3 ∣ (List.range 7).length) →
      ∀ lc, (split_dataset_chunks (List.range 7) 3).getLast? = some lc →
        lc.length = (List.range 7).length % 3) := by
  have h := split_dataset_partition (List.range 7) 3 (by decide)
  simpa using h

/-- C8 counterexample: a readable source with zero items does not fail —
`split_dataset` creates a Job with zero chunks (`(0 + 100 - 1) / 100 = 0`)
and returns its id; no `EmptySource` (or any) error path exists for it. -/
theorem split_empty_source_creates_job :
    split_for_parallel (some []) 100 = .ok ⟨0, 100, 0, []⟩ := rfl

/-- C8 amended: for every chunk size `S > 0`, a readable zero-item source
yields a successfully created zero-chunk Job rather than an error. -/
theorem split_empty_source_zero_chunk_job (S : Nat) (hS : 0 < S) :
    split_for_parallel (some []) S = .ok ⟨0, S, 0, []⟩ := by
  unfold split_for_parallel
  have h0 : (0 + S - 1) / S = 0 := Nat.div_eq_of_lt (by omega)
  have h1 : split_dataset_chunks ([] : List (List String)) S = [] := by
    unfold split_dataset_chunks
    simp only [List.length_nil, h0]
    simp
  have h2 : (S - 1) / S = 0 := Nat.div_eq_of_lt (by omega)
  simp [h0, h1, h2]

theorem split_empty_source_zero_chunk_job_witness :
    split_for_parallel (some []) 7 = .ok ⟨0, 7, 0, []⟩ :=
  split_empty_source_zero_chunk_job 7 (by decide)

/-- C3: within one `run_parallel` run the pending set is the one-time
snapshot taken at start (the remaining iterator is always a suffix of it);
every chunk handed to a worker is drawn from that snapshot exactly once —
the launched chunks are duplicate-free, belong to the snapshot and are no
longer in the iterator — and at most `W` invocations are in flight at any
reachable state. -/
theorem run_parallel_snapshot_once (W : Nat) (init : List Nat) (s : ExecState)
    (hnd : init.Nodup) (h : ExecReach W init s) :
    s.inFlight.length ≤ W ∧
    (s.inFlight ++ s.finished.map Prod.fst).Nodup ∧
    (∀ c ∈ s.inFlight ++ s.finished.map Prod.fst, c ∈ init ∧ c ∉ s.toLaunch) ∧
    (∃ k, s.toLaunch = init.drop k) := by
  obtain ⟨launched, h1, h2, h3⟩ := execReach_inv W init s h
  have hnd2 : launched.Nodup ∧ s.toLaunch.Nodup ∧
      launched.Disjoint s.toLaunch := by
    rw [h1] at hnd
    exact ⟨hnd.of_append_left, hnd.of_append_right,
      List.disjoint_of_nodup_append hnd⟩
  refine ⟨h3, ?_, ?_, ⟨launched.length, ?_⟩⟩
  · exact (h2.nodup_iff).mpr hnd2.1
  · intro c hc
    have hcl : c ∈ launched := h2.subset hc
    exact ⟨h1 ▸ List.mem_append_left _ hcl, fun hct => hnd2.2.2 hcl hct⟩
  · rw [h1, List.drop_left]

theorem run_parallel_snapshot_once_witness :
    ((⟨[3], [2], [(1, true)]⟩ : ExecState).inFlight.length ≤ 1 ∧
    ((⟨[3], [2], [(1, true)]⟩ : ExecState).inFlight ++
      (⟨[3], [2], [(1, true)]⟩ : ExecState).finished.map Prod.fst).Nodup ∧
    (∀ c ∈ (⟨[3], [2], [(1, true)]⟩ : ExecState).inFlight ++
        (⟨[3], [2], [(1, true)]⟩ : ExecState).finished.map Prod.fst,
      c ∈ [1, 2, 3] ∧ c ∉ (⟨[3], [2], [(1, true)]⟩ : ExecState).toLaunch) ∧
    (∃ k, (⟨[3], [2], [(1, true)]⟩ : ExecState).toLaunch = [1, 2, 3].drop k)) := by
  have step1 : ExecStep 1 ⟨[1, 2, 3], [], []⟩ ⟨[2, 3], [1], []⟩ :=
    ExecStep.launch 1 [2, 3] [] [] (by decide)
  have step2 : ExecStep 1 ⟨[2, 3], [1], []⟩ ⟨[2, 3], [], [(1, true)]⟩ :=
    ExecStep.finish 1 true [2, 3] [1] [] (by decide)
  have step3 : ExecStep 1 ⟨[2, 3], [], [(1, true)]⟩ ⟨[3], [2], [(1, true)]⟩ :=
    ExecStep.launch 2 [3] [] [(1, true)] (by decide)
  have hreach : ExecReach 1 [1, 2, 3] ⟨[3], [2], [(1, true)]⟩ :=
    Relation.ReflTransGen.head step1
      (Relation.ReflTransGen.head step2
        (Relation.ReflTransGen.head step3 Relation.ReflTransGen.refl))
  exact run_parallel_snapshot_once 1 [1, 2, 3] ⟨[3], [2], [(1, true)]⟩
    (by decide) hreach

/-- C6: running the Executor against a Job whose chunks all carry the
`.done` marker finds an empty pending list, launches zero chunk
invocations and leaves the chunk store unchanged. -/
theorem run_parallel_all_done_noop (store : List StoredChunk)
    (env : Nat → ChunkEnv) (h : ∀ c ∈ store, c.done = true) :
    run_parallel store env = ([], store) := by
  unfold run_parallel
  have hp : get_pending_chunks store = [] := by
    unfold get_pending_chunks
    apply List.filter_eq_nil_iff.mpr
    intro c hc
    have hcs : c ∈ store := (List.perm_insertionSort chunkLE store).subset hc
    simp [h c hcs]
  rw [hp]
  rfl

theorem run_parallel_all_done_noop_witness :
    run_parallel
      [⟨1, true, none⟩, ⟨2, true, some (["id"], [["a"]])⟩]
      (fun _ => ⟨true, none, 0, []⟩)
      = ([], [⟨1, true, none⟩, ⟨2, true, some (["id"], [["a"]])⟩]) :=
  run_parallel_all_done_noop _ _ (by decide)

/-- The C5 scenario: a Job with 250 items and chunk size 100 — chunks 1
and 3 completed (with 100- and 50-row results), chunk 2 failed (no `.done`
marker, partial output). -/
def scenario_store_250 : List StoredChunk :=
  [⟨1, true, some (["id"], List.replicate 100 ["a"])⟩,
   ⟨2, false, some (["id"], [["b"]])⟩,
   ⟨3, true, some (["id"], List.replicate 50 ["c"])⟩]

/-- C5 counterexample: in the scenario the merge yields exactly the 100+50
rows of chunks 1 and 3 with an *empty* warning list — `merge_results`
never warns that the Job is incomplete (its only warning is for a
completed chunk whose `result.tsv` file is missing, and there is none
here), refuting "together with a warning that the Job is incomplete". -/
theorem merge_scenario_emits_no_warning :
    merge_results scenario_store_250 =
      .merged ["id"] (List.replicate 100 ["a"] ++ List.replicate 50 ["c"]) [] := by
  rfl

/-- C5 amended: after chunks 1 and 3 complete and chunk 2 fails,
`get_pending_chunks` returns exactly chunk 2, `get_completed_chunks`
returns exactly chunks 1 and 3 in index order, and the merge yields
exactly 150 data rows — but no incompleteness warning. -/
theorem merge_scenario_partial :
    (get_pending_chunks scenario_store_250).map (fun c => c.index) = [2] ∧
    (get_completed_chunks scenario_store_250).map (fun c => c.index) = [1, 3] ∧
    (∃ rows, merge_results scenario_store_250 = .merged ["id"] rows [] ∧
      rows.length = 150) := by
  refine ⟨by decide, by decide,
    ⟨List.replicate 100 ["a"] ++ List.replicate 50 ["c"], rfl, by simp⟩⟩

/-- C4: a sequential run restarted without start-over (and without limit)
processes exactly the items strictly after the persisted resume pointer,
in source order: if the pointer names the item at position `i`, the
processed slice is `files.drop (i + 1)`, and prefixing the first `i + 1`
items restores the full source. -/
theorem seq_resume_after_pointer (files : List String) (r : String) (i : Nat)
    (hidx : files.indexOf? r = some i) :
    seq_files_to_process files false false 0 (some r) = files.drop (i + 1) ∧
    files.take (i + 1) ++ seq_files_to_process files false false 0 (some r)
      = files := by
  have hstart : resume_start_idx files (some r) = i + 1 := by
    simp [resume_start_idx, hidx]
  have hmain : seq_files_to_process files false false 0 (some r)
      = files.drop (i + 1) := by
    unfold seq_files_to_process
    simp only [Bool.not_false, Bool.and_self, if_true, hstart, gt_iff_lt,
      Nat.lt_irrefl, if_false]
    apply List.take_of_length_le
    simp [List.length_drop]
  exact ⟨hmain, by rw [hmain, List.take_append_drop]⟩

/-- The spec's 1000-item sequential source, items named by their 1-based
position rendered as decimal strings would be equivalent; positions
0..999 are used here. -/
def files1000 : List String := (List.range 1000).map (fun n => toString n)

set_option maxRecDepth 10000 in
theorem seq_resume_after_pointer_witness :
    seq_files_to_process files1000 false false 0 (some (toString 499))
      = files1000.drop 500 ∧
    files1000.take 500 ++
      seq_files_to_process files1000 false false 0 (some (toString 499))
      = files1000 :=
  seq_resume_after_pointer files1000 (toString 499) 499 (by decide)

/-- Case analysis of `seq_run` for an ordinary run (no start-over, no
retry-failed), with the intermediate quantities named. -/
theorem seq_run_normal_cases (dirFiles : List String) (limit : Nat)
    (art : SeqArtifacts) (failsWith : String → Option String)
    (start_idx end_idx : Nat) (ftp : List String)
    (hs : start_idx = resume_start_idx dirFiles art.resumePtr)
    (he : end_idx = if limit > 0 then min (start_idx + limit) dirFiles.length
      else dirFiles.length)
    (hf : ftp = (dirFiles.drop start_idx).take (end_idx - start_idx)) :
    seq_run dirFiles false false limit art failsWith =
      (if ftp.isEmpty then art
       else if dirFiles.length - end_idx = 0 then
         ⟨none, art.failedQueue ++ ftp.filterMap
           (fun f => (failsWith f).map (fun e => (f, e)))⟩
       else
         ⟨ftp.getLast?, art.failedQueue ++ ftp.filterMap
           (fun f => (failsWith f).map (fun e => (f, e)))⟩) := by
  subst hs
  subst he
  subst hf
  unfold seq_run
  rfl

/-- C9 counterexample: a run that is *not* a start-over (and not a
retry-failed pass) deletes the resume pointer when it processes through
the end of the item list — here the pointer `some "a"` is present before
the run and the artifact is gone (`none`) afterwards, refuting "never
deleted by any operation other than an explicit start-over". -/
theorem seq_run_end_deletes_pointer :
    (seq_run ["a", "b"] false false 0 ⟨some "a", []⟩ (fun _ => none)).resumePtr
      = none ∧
    (⟨some "a", []⟩ : SeqArtifacts).resumePtr = some "a" := by
  exact ⟨rfl, rfl⟩

/-- C9 amended: in a run without start-over and without retry-failed, the
FailedQueue is never deleted — the final queue is the initial queue plus
this run's failures — and the ResumePointer persists (set to the last
processed item) in every case except one: a run that processes through
the end of the item list deletes the pointer file.  (Start-over deletes
both artifacts, and a retry-failed pass truncates the queue, as the
source's `--startover` / `--retry-failed` branches do.) -/
theorem seq_run_artifact_lifecycle (dirFiles : List String) (limit : Nat)
    (art : SeqArtifacts) (failsWith : String → Option String)
    (start_idx end_idx : Nat) (ftp : List String)
    (hs : start_idx = resume_start_idx dirFiles art.resumePtr)
    (he : end_idx = if limit > 0 then min (start_idx + limit) dirFiles.length
      else dirFiles.length)
    (hf : ftp = (dirFiles.drop start_idx).take (end_idx - start_idx)) :
    (∃ suffix, (seq_run dirFiles false false limit art failsWith).failedQueue
      = art.failedQueue ++ suffix) ∧
    (ftp = [] → seq_run dirFiles false false limit art failsWith = art) ∧
    (ftp ≠ [] → end_idx < dirFiles.length →
      (seq_run dirFiles false false limit art failsWith).resumePtr
        = ftp.getLast?) ∧
    (ftp ≠ [] → end_idx = dirFiles.length →
      (seq_run dirFiles false false limit art failsWith).resumePtr = none) := by
  rw [seq_run_normal_cases dirFiles limit art failsWith start_idx end_idx ftp
    hs he hf]
  by_cases hemp : ftp.isEmpty = true
  · have hfe : ftp = [] := by
      rwa [List.isEmpty_iff] at hemp
    rw [if_pos hemp]
    exact ⟨⟨[], by simp⟩, fun _ => rfl,
      fun h _ => absurd hfe h, fun h _ => absurd hfe h⟩
  · have hfe : ftp ≠ [] := by
      intro h
      exact hemp (by rw [h]; rfl)
    rw [if_neg hemp]
    by_cases hrem : dirFiles.length - end_idx = 0
    · rw [if_pos hrem]
      exact ⟨⟨_, rfl⟩, fun h => absurd h hfe,
        fun _ hlt => absurd hrem (by omega), fun _ _ => rfl⟩
    · rw [if_neg hrem]
      exact ⟨⟨_, rfl⟩, fun h => absurd h hfe,
        fun _ _ => rfl, fun _ heq => absurd (by omega) hrem⟩

theorem seq_run_artifact_lifecycle_witness :
    (∃ suffix,
      (seq_run ["a", "b", "c"] false false 2 ⟨none, [("z", "e")]⟩
        (fun f => if f = "b" then some "berr" else none)).failedQueue
        = [("z", "e")] ++ suffix) ∧
    (["a", "b"] = ([] : List String) →
      seq_run ["a", "b", "c"] false false 2 ⟨none, [("z", "e")]⟩
        (fun f => if f = "b" then some "berr" else none)
        = ⟨none, [("z", "e")]⟩) ∧
    (["a", "b"] ≠ ([] : List String) →
      2 < (["a", "b", "c"] : List String).length →
      (seq_run ["a", "b", "c"] false false 2 ⟨none, [("z", "e")]⟩
        (fun f => if f = "b" then some "berr" else none)).resumePtr
        = (["a", "b"] : List String).getLast?) ∧
    (["a", "b"] ≠ ([] : List String) →
      2 = (["a", "b", "c"] : List String).length →
      (seq_run ["a", "b", "c"] false false 2 ⟨none, [("z", "e")]⟩
        (fun f => if f = "b" then some "berr" else none)).resumePtr = none) :=
  seq_run_artifact_lifecycle ["a", "b", "c"] 2 ⟨none, [("z", "e")]⟩
    (fun f => if f = "b" then some "berr" else none) 0 2 ["a", "b"]
    rfl (by decide) (by decide)

/-- C10: when the persisted resume pointer names an item that does not
occur in the current list, the run does not error: the start index falls
back to `0`, the processed slice is exactly the no-pointer slice, and (on
a non-empty list) the whole run has the same effect as one with no saved
pointer. -/
theorem seq_missing_pointer_starts_at_zero (files : List String) (r : String)
    (limit : Nat) (q : List (String × String))
    (failsWith : String → Option String)
    (hnot : files.indexOf? r = none) :
    resume_start_idx files (some r) = 0 ∧
    seq_files_to_process files false false limit (some r)
      = seq_files_to_process files false false limit none ∧
    (files ≠ [] →
      seq_run files false false limit ⟨some r, q⟩ failsWith
        = seq_run files false false limit ⟨none, q⟩ failsWith) := by
  have hstart : resume_start_idx files (some r) = 0 := by
    simp [resume_start_idx, hnot]
  refine ⟨hstart, ?_, ?_⟩
  · unfold seq_files_to_process
    simp only [Bool.not_false, Bool.and_self, if_true, hstart]
    rfl
  · intro hne
    obtain ⟨e, hedef⟩ : ∃ e,
        e = (if limit > 0 then min (0 + limit) files.length
          else files.length) := ⟨_, rfl⟩
    rw [seq_run_normal_cases files limit ⟨some r, q⟩ failsWith 0 e
      (files.take (e - 0)) hstart.symm hedef (by rw [List.drop_zero]),
      seq_run_normal_cases files limit ⟨none, q⟩ failsWith 0 e
      (files.take (e - 0)) rfl hedef (by rw [List.drop_zero])]
    have hemp : (files.take (e - 0)).isEmpty ≠ true := by
      rcases files with _ | ⟨a, tl⟩
      · exact absurd rfl hne
      · obtain ⟨k, hk⟩ : ∃ k, e = k + 1 := by
          refine ⟨e - 1, ?_⟩
          rw [hedef]
          rcases Nat.eq_zero_or_pos limit with hl | hl
          · rw [if_neg (by omega)]
            simp
          · rw [if_pos hl]
            simp only [List.length_cons]
            omega
        rw [Nat.sub_zero, hk, List.take_succ_cons]
        simp
    rw [if_neg hemp, if_neg hemp]

theorem seq_missing_pointer_starts_at_zero_witness :
    resume_start_idx ["a", "b", "c"] (some "zz") = 0 ∧
    seq_files_to_process ["a", "b", "c"] false false 0 (some "zz")
      = seq_files_to_process ["a", "b", "c"] false false 0 none ∧
    ((["a", "b", "c"] : List String) ≠ [] →
      seq_run ["a", "b", "c"] false false 0 ⟨some "zz", []⟩ (fun _ => none)
        = seq_run ["a", "b", "c"] false false 0 ⟨none, []⟩ (fun _ => none)) :=
  seq_missing_pointer_starts_at_zero ["a", "b", "c"] "zz" 0 [] (fun _ => none)
    (by decide)

theorem remap_row_some (fieldnames hdr row : List String)
    (h : ∀ x ∈ hdr, x ∈ fieldnames) :
    remap_row fieldnames hdr row =
      some (fieldnames.map (fun f =>
        (((hdr.zip row).find? (fun p => p.1 = f)).map Prod.snd).getD "")) := by
  unfold remap_row
  rw [if_pos]
  apply List.all_eq_true.mpr
  intro p hp
  have hmem : p.1 ∈ hdr := by
    rcases p with ⟨x, y⟩
    exact (List.of_mem_zip hp).1
  exact List.elem_eq_true_of_mem (h p.1 hmem)

theorem remap_rows_some (fieldnames hdr : List String)
    (rows : List (List String)) (h : ∀ x ∈ hdr, x ∈ fieldnames) :
    ∃ rs, remap_rows fieldnames hdr rows = some rs := by
  induction rows with
  | nil => exact ⟨[], rfl⟩
  | cons r rs ih =>
    obtain ⟨out, hout⟩ := ih
    refine ⟨(fieldnames.map (fun f =>
      (((hdr.zip r).find? (fun p => p.1 = f)).map Prod.snd).getD "")) :: out, ?_⟩
    simp only [remap_rows, remap_row_some fieldnames hdr r h, hout]
    rfl

theorem remap_row_none (fieldnames hdr row : List String)
    (p : String × String) (hp : p ∈ hdr.zip row) (hnot : p.1 ∉ fieldnames) :
    remap_row fieldnames hdr row = none := by
  unfold remap_row
  rw [if_neg]
  intro hall
  exact hnot (List.mem_of_elem_eq_true (List.all_eq_true.mp hall p hp))

theorem remap_rows_none (fieldnames hdr : List String)
    (rows : List (List String)) (row : List String) (hrow : row ∈ rows)
    (p : String × String) (hp : p ∈ hdr.zip row) (hnot : p.1 ∉ fieldnames) :
    remap_rows fieldnames hdr rows = none := by
  induction rows with
  | nil => cases hrow
  | cons r rs ih =>
    simp only [remap_rows]
    rcases List.mem_cons.mp hrow with he | ht
    · subst he
      rw [remap_row_none fieldnames hdr row p hp hnot]
    · rcases hr2 : remap_row fieldnames hdr r with _ | r2
      · simp [hr2]
      · simp [hr2, ih ht]

theorem merge_chunks_some (fieldnames : List String)
    (chunks : List StoredChunk)
    (h : ∀ c ∈ chunks, ∀ hdr rows2, c.result = some (hdr, rows2) →
      ∀ x ∈ hdr, x ∈ fieldnames) :
    ∃ out, merge_chunks fieldnames chunks = some out := by
  induction chunks with
  | nil => exact ⟨([], []), rfl⟩
  | cons c rest ih =>
    obtain ⟨out, hout⟩ := ih (fun d hd => h d (List.mem_cons_of_mem c hd))
    rcases hres : c.result with _ | ⟨hdr, rows2⟩
    · refine ⟨(out.1, c.index :: out.2), ?_⟩
      simp only [merge_chunks, hres, hout]
      rfl
    · obtain ⟨rs, hrs⟩ := remap_rows_some fieldnames hdr rows2
        (h c (List.mem_cons_self c rest) hdr rows2 hres)
      refine ⟨(rs ++ out.1, out.2), ?_⟩
      simp only [merge_chunks, hres, hrs, hout]
      rfl

theorem merge_chunks_none (fieldnames : List String)
    (chunks : List StoredChunk) (c : StoredChunk) (hc : c ∈ chunks)
    (hdr : List String) (rows2 : List (List String))
    (hres : c.result = some (hdr, rows2))
    (row : List String) (hrow : row ∈ rows2)
    (p : String × String) (hp : p ∈ hdr.zip row) (hnot : p.1 ∉ fieldnames) :
    merge_chunks fieldnames chunks = none := by
  induction chunks with
  | nil => cases hc
  | cons d rest ih =>
    simp only [merge_chunks]
    rcases List.mem_cons.mp hc with he | ht
    · subst he
      simp only [hres, remap_rows_none fieldnames hdr rows2 row hrow p hp hnot]
    · rcases hd : d.result with _ | ⟨dh, dr⟩
      · simp [ih ht]
      · rcases hrm : remap_rows fieldnames dh dr with _ | rs
        · simp [hrm]
        · simp [hrm, ih ht]

/-- A store whose two completed chunks declare different schema headers:
chunk 1 has columns `id, w`; chunk 2 declares only `id`. -/
def store_subset_header : List StoredChunk :=
  [⟨1, true, some (["id", "w"], [["1", "2"]])⟩,
   ⟨2, true, some (["id"], [["3"]])⟩]

/-- C7 counterexample: chunk 2 declares the header `["id"]`, different
from the first chunk's `["id", "w"]`, yet the merge does not fail — it
produces a merged result, filling the missing `w` column of chunk 2's row
with the empty-string `restval` (`csv.DictWriter` only raises on extra
keys, never on missing ones). -/
theorem merge_different_header_no_failure :
    merge_results store_subset_header =
      .merged ["id", "w"] [["1", "2"], ["3", ""]] [] := by
  rfl

/-- C7 amended: the merge takes its fieldnames from the first completed
chunk's output; a merge over chunks all of whose header columns are
contained in those fieldnames succeeds (missing columns are filled with
the empty string), and the merge fails — an uncaught `ValueError` rather
than a produced result — whenever some completed chunk's output contains
a row with a column outside the fieldnames. -/
theorem merge_schema_from_first (store : List StoredChunk)
    (first : StoredChunk) (rest : List StoredChunk)
    (fieldnames : List String) (rows0 : List (List String))
    (hc : get_completed_chunks store = first :: rest)
    (hr : first.result = some (fieldnames, rows0)) :
    (∀ fn rws warns, merge_results store = .merged fn rws warns →
      fn = fieldnames) ∧
    ((∀ c ∈ first :: rest, ∀ hdr rows2, c.result = some (hdr, rows2) →
        ∀ x ∈ hdr, x ∈ fieldnames) →
      ∃ rws warns, merge_results store = .merged fieldnames rws warns) ∧
    (∀ c ∈ first :: rest, ∀ hdr rows2, c.result = some (hdr, rows2) →
      ∀ row ∈ rows2, ∀ p ∈ hdr.zip row, p.1 ∉ fieldnames →
        merge_results store = .valueErrorRaised) := by
  have hm : merge_results store =
      (match merge_chunks fieldnames (first :: rest) with
       | none => .valueErrorRaised
       | some (rows, warns) => .merged fieldnames rows warns) := by
    unfold merge_results
    simp only [hc, hr]
  refine ⟨?_, ?_, ?_⟩
  · intro fn rws warns hmerged
    rw [hm] at hmerged
    rcases hmc : merge_chunks fieldnames (first :: rest) with _ | ⟨rws2, warns2⟩
    · rw [hmc] at hmerged
      cases hmerged
    · rw [hmc] at hmerged
      injection hmerged with h1 h2 h3
      exact h1.symm
  · intro hall
    obtain ⟨⟨rws, warns⟩, hout⟩ := merge_chunks_some fieldnames (first :: rest)
      hall
    exact ⟨rws, warns, by rw [hm, hout]⟩
  · intro c hcmem hdr rows2 hres row hrow p hp hnot
    rw [hm, merge_chunks_none fieldnames (first :: rest) c hcmem hdr rows2 hres
      row hrow p hp hnot]

theorem merge_schema_from_first_witness :
    (∀ fn rws warns, merge_results store_subset_header = .merged fn rws warns →
      fn = ["id", "w"]) ∧
    ((∀ c ∈ [(⟨1, true, some (["id", "w"], [["1", "2"]])⟩ : StoredChunk),
        ⟨2, true, some (["id"], [["3"]])⟩],
      ∀ hdr rows2, c.result = some (hdr, rows2) →
        ∀ x ∈ hdr, x ∈ ["id", "w"]) →
      ∃ rws warns, merge_results store_subset_header
        = .merged ["id", "w"] rws warns) ∧
    (∀ c ∈ [(⟨1, true, some (["id", "w"], [["1", "2"]])⟩ : StoredChunk),
        ⟨2, true, some (["id"], [["3"]])⟩],
      ∀ hdr rows2, c.result = some (hdr, rows2) →
        ∀ row ∈ rows2, ∀ p ∈ hdr.zip row, p.1 ∉ ["id", "w"] →
          merge_results store_subset_header = .valueErrorRaised) :=
  merge_schema_from_first store_subset_header
    ⟨1, true, some (["id", "w"], [["1", "2"]])⟩
    [⟨2, true, some (["id"], [["3"]])⟩]
    ["id", "w"] [["1", "2"]] (by decide) rfl
